import Mathlib

/-!
Verification of the monthly metrics derivation engine and the ledger-based
cash-balance reconstruction of the Data-Analytics-Portfolio repository.

The Lean definitions below are shallow embeddings of the Python source:

* `transform_HD_daily_ledger.py` : `build_monthly_from_ledger` and its
  intermediate steps (flatten, cash-account filter, monthly grouping,
  reverse cumulative sums, anchored back-fill, rounding to 2 decimals).
* `metrics_pipeline.py` : the metric calculators (`calculate_opex`,
  `calculate_cogs`, `calculate_financial_costs`, `calculate_cac`,
  `calculate_ebitda`, `calculate_burn_rate`, `calculate_runway`,
  `calculate_new_mrr`, `calculate_churned_mrr`, `calculate_contraction_mrr`)
  and the final merge stage of `run_pipeline`.

Modelling conventions:

* Monetary amounts are rationals; pandas floats are modelled exactly.
* A month key is its canonical YYYY-MM string; sorting months through a
  datetime round trip (as the source does) coincides with the core
  lexicographic string order on such keys, which is what we use.
* A pandas DataFrame keyed by month is a list of rows; NaN cells are
  `Option.none`; `fillna(0)` is `Option.getD 0`.
* Python date columns are carried directly as their extracted YYYY-MM
  month (`ensure_month_format` is the identity in the model).
* Reading an input file that may be absent is an `Option` argument;
  a fatal precondition failure is an `Except.error`.
-/

namespace Portfolio

/-- A calendar month canonicalized as a YYYY-MM string. -/
abbrev MonthKey := String

/-- Lexicographic strict comparison of character lists by code point; on the
canonical YYYY-MM keys this is chronological order.  It is implemented
structurally so that the kernel can evaluate it on concrete inputs. -/
def lexLtb : List Char → List Char → Bool
  | [], [] => false
  | [], _ :: _ => true
  | _ :: _, [] => false
  | a :: as, b :: bs =>
    if a.toNat < b.toNat then true
    else if b.toNat < a.toNat then false
    else lexLtb as bs

/-- Strict comparison of month keys. -/
def monthLtb (a b : MonthKey) : Bool := lexLtb a.data b.data

/-- `monthLeb a b` holds when `a` is not after `b`. -/
def monthLeb (a b : MonthKey) : Bool := !(monthLtb b a)

/-- Rounding to 2 decimal places, as `Series.round(2)` / `round(x, 2)` do. -/
def round2 (q : ℚ) : ℚ := (round (q * 100) : ℤ) / 100

/-- First-occurrence deduplication (helper with the already-seen keys). -/
def dedupAux (seen : List MonthKey) : List MonthKey → List MonthKey
  | [] => []
  | m :: t => if m ∈ seen then dedupAux seen t else m :: dedupAux (m :: seen) t

/-- First-occurrence deduplication, as pandas unique/groupby keys behave. -/
def firstDedup (l : List MonthKey) : List MonthKey := dedupAux [] l

/-- Insert an element into a list sorted ascending by its month key. -/
def insertByMonth {α : Type} (key : α → MonthKey) (a : α) : List α → List α
  | [] => [a]
  | x :: t => if monthLeb (key a) (key x) then a :: x :: t else x :: insertByMonth key a t

/-- Insertion sort, ascending by month key. -/
def sortByMonth {α : Type} (key : α → MonthKey) : List α → List α
  | [] => []
  | x :: t => insertByMonth key x (sortByMonth key t)

/-- Insertion sort of bare month keys. -/
def sortKeys (l : List MonthKey) : List MonthKey := sortByMonth (fun m => m) l

/-- The sorted list of distinct group keys, as `groupby("month")` produces. -/
def groupMonths (ms : List MonthKey) : List MonthKey := sortKeys (firstDedup ms)

-- ## Order lemmas for the month comparison

theorem charEqOfToNat {a b : Char} (h : a.toNat = b.toNat) : a = b :=
  Char.eq_of_val_eq (UInt32.eq_of_toBitVec_eq (BitVec.eq_of_toNat_eq h))

theorem lexLtb_irrefl : ∀ l, lexLtb l l = false := by
  intro l
  induction l with
  | nil => rfl
  | cons a t ih => simp [lexLtb, ih]

theorem lexLtb_trans : ∀ a b c, lexLtb a b = true → lexLtb b c = true →
    lexLtb a c = true := by
  intro a
  induction a with
  | nil =>
    intro b c h1 h2
    cases b with
    | nil => exact absurd h1 (by simp [lexLtb])
    | cons y bs =>
      cases c with
      | nil => exact absurd h2 (by simp [lexLtb])
      | cons z cs => simp [lexLtb]
  | cons x as ih =>
    intro b c h1 h2
    cases b with
    | nil => exact absurd h1 (by simp [lexLtb])
    | cons y bs =>
      cases c with
      | nil => exact absurd h2 (by simp [lexLtb])
      | cons z cs =>
        simp only [lexLtb] at h1 h2 ⊢
        rcases Nat.lt_trichotomy x.toNat y.toNat with hxy | hxy | hxy
        · rcases Nat.lt_trichotomy y.toNat z.toNat with hyz | hyz | hyz
          · simp [Nat.lt_trans hxy hyz]
          · simp [hyz ▸ hxy]
          · simp [hyz, Nat.lt_asymm hyz] at h2
        · rcases Nat.lt_trichotomy y.toNat z.toNat with hyz | hyz | hyz
          · simp [hxy ▸ hyz]
          · simp only [hxy, hyz] at h1 h2 ⊢
            simp only [lt_irrefl, if_false] at h1 h2 ⊢
            exact ih bs cs h1 h2
          · simp [hyz, Nat.lt_asymm hyz] at h2
        · simp [hxy, Nat.lt_asymm hxy] at h1

theorem lexLtb_connex : ∀ a b, lexLtb a b = false → lexLtb b a = false → a = b := by
  intro a
  induction a with
  | nil =>
    intro b h1 _
    cases b with
    | nil => rfl
    | cons y bs => exact absurd h1 (by simp [lexLtb])
  | cons x as ih =>
    intro b h1 h2
    cases b with
    | nil => exact absurd h2 (by simp [lexLtb])
    | cons y bs =>
      simp only [lexLtb] at h1 h2
      rcases Nat.lt_trichotomy x.toNat y.toNat with hxy | hxy | hxy
      · simp [hxy] at h1
      · have hc : x = y := charEqOfToNat hxy
        simp only [hxy, lt_irrefl, if_false] at h1 h2
        rw [hc, ih bs h1 h2]
      · simp [hxy] at h2

theorem lexLtb_asymm {a b : List Char} (h : lexLtb a b = true) : lexLtb b a = false := by
  by_contra hc
  have hba : lexLtb b a = true := by
    cases hx : lexLtb b a with
    | true => rfl
    | false => exact absurd hx hc
  have := lexLtb_trans a b a h hba
  rw [lexLtb_irrefl] at this
  exact Bool.false_ne_true this

theorem monthLeb_total (a b : MonthKey) : monthLeb a b = true ∨ monthLeb b a = true := by
  by_cases h : monthLtb b a = true
  · right
    have := lexLtb_asymm h
    simp [monthLeb, monthLtb, this]
  · left
    simp only [monthLeb, Bool.not_eq_true']
    simpa using h

theorem monthLeb_trans {a b c : MonthKey} (h1 : monthLeb a b = true)
    (h2 : monthLeb b c = true) : monthLeb a c = true := by
  simp only [monthLeb, monthLtb, Bool.not_eq_true'] at h1 h2 ⊢
  by_contra hc
  have hca : lexLtb c.data a.data = true := by
    cases hx : lexLtb c.data a.data with
    | true => rfl
    | false => exact absurd hx hc
  cases hab : lexLtb a.data b.data with
  | true =>
    have := lexLtb_trans c.data a.data b.data hca hab
    rw [h2] at this
    exact Bool.false_ne_true this
  | false =>
    have hba : a.data = b.data := lexLtb_connex a.data b.data hab h1
    rw [hba] at hca
    rw [h2] at hca
    exact Bool.false_ne_true hca

-- ## List machinery lemmas

theorem mem_dedupAux : ∀ (l seen : List MonthKey) (x : MonthKey),
    x ∈ dedupAux seen l ↔ x ∈ l ∧ x ∉ seen := by
  intro l
  induction l with
  | nil => intro seen x; simp [dedupAux]
  | cons m t ih =>
    intro seen x
    simp only [dedupAux]
    by_cases h : m ∈ seen
    · rw [if_pos h, ih]
      constructor
      · rintro ⟨hx, hns⟩
        exact ⟨List.mem_cons_of_mem m hx, hns⟩
      · rintro ⟨hx, hns⟩
        rcases List.mem_cons.mp hx with rfl | hx2
        · exact absurd h hns
        · exact ⟨hx2, hns⟩
    · rw [if_neg h, List.mem_cons, ih]
      constructor
      · rintro (rfl | ⟨hx, hns⟩)
        · exact ⟨List.mem_cons_self x t, h⟩
        · refine ⟨List.mem_cons_of_mem m hx, fun hs => hns (List.mem_cons_of_mem m hs)⟩
      · rintro ⟨hx, hns⟩
        rcases List.mem_cons.mp hx with rfl | hx2
        · exact Or.inl rfl
        · by_cases hxm : x = m
          · exact Or.inl hxm
          · refine Or.inr ⟨hx2, fun hs => ?_⟩
            rcases List.mem_cons.mp hs with h1 | h2
            · exact hxm h1
            · exact hns h2

theorem nodup_dedupAux : ∀ (l seen : List MonthKey), (dedupAux seen l).Nodup := by
  intro l
  induction l with
  | nil => intro seen; simp [dedupAux]
  | cons m t ih =>
    intro seen
    simp only [dedupAux]
    by_cases h : m ∈ seen
    · rw [if_pos h]; exact ih seen
    · rw [if_neg h, List.nodup_cons]
      refine ⟨fun hmem => ?_, ih (m :: seen)⟩
      exact ((mem_dedupAux t (m :: seen) m).mp hmem).2 (List.mem_cons_self m seen)

theorem mem_firstDedup (l : List MonthKey) (x : MonthKey) :
    x ∈ firstDedup l ↔ x ∈ l := by
  simp [firstDedup, mem_dedupAux]

theorem nodup_firstDedup (l : List MonthKey) : (firstDedup l).Nodup :=
  nodup_dedupAux l []

theorem insertByMonth_perm {α : Type} (key : α → MonthKey) (a : α) :
    ∀ l : List α, List.Perm (insertByMonth key a l) (a :: l) := by
  intro l
  induction l with
  | nil => exact List.Perm.refl _
  | cons x t ih =>
    by_cases h : monthLeb (key a) (key x)
    · simp [insertByMonth, if_pos h]
    · simp only [insertByMonth, if_neg h]
      exact (ih.cons x).trans (List.Perm.swap a x t)

theorem sortByMonth_perm {α : Type} (key : α → MonthKey) :
    ∀ l : List α, List.Perm (sortByMonth key l) l := by
  intro l
  induction l with
  | nil => exact List.Perm.refl _
  | cons x t ih =>
    exact (insertByMonth_perm key x (sortByMonth key t)).trans (ih.cons x)

theorem mem_groupMonths (ms : List MonthKey) (x : MonthKey) :
    x ∈ groupMonths ms ↔ x ∈ ms := by
  rw [groupMonths, sortKeys]
  rw [(sortByMonth_perm (fun m => m) (firstDedup ms)).mem_iff]
  exact mem_firstDedup ms x

theorem nodup_groupMonths (ms : List MonthKey) : (groupMonths ms).Nodup :=
  ((sortByMonth_perm (fun m => m) (firstDedup ms)).nodup_iff).mpr (nodup_firstDedup ms)

/-- `find?` over a list built by mapping a value function over keys. -/
theorem find?_keyed {α : Type} (ms : List MonthKey) (g : MonthKey → α) (m : MonthKey) :
    ((ms.map (fun x => (x, g x))).find? (fun r => r.1 == m)) =
      if m ∈ ms then some (m, g m) else none := by
  induction ms with
  | nil => simp
  | cons a t ih =>
    by_cases h : a = m
    · subst h
      simp [List.find?_cons_of_pos]
    · have hne : ((a, g a).1 == m) = false := by simp [h]
      rw [List.map_cons, List.find?_cons_of_neg _ (by simp [h]), ih]
      have h2 : ¬ m = a := fun hma => h hma.symm
      simp [h2]

/-- `countP` of a key over a list built by mapping a value function. -/
theorem countP_keyed {α : Type} (ms : List MonthKey) (g : MonthKey → α) (m : MonthKey) :
    ((ms.map (fun x => (x, g x))).countP (fun r => r.1 == m)) = ms.count m := by
  rw [List.countP_map]
  rfl

-- ## Cash Balance Reconstructor (transform_HD_daily_ledger.py)

/-- One flattened ledger movement: account code, debit and credit. -/
structure RawEntry where
  account : String
  debit : ℚ
  credit : ℚ
  deriving Repr, DecidableEq

/-- One raw ledger window: a month together with its entries. -/
structure Window where
  month : MonthKey
  entries : List RawEntry
  deriving Repr, DecidableEq

/-- Errors of `build_monthly_from_ledger` (fatal precondition failures). -/
inductive LedgerError where
  | missingLedgerFile
  | missingSnapshotFile
  deriving Repr, DecidableEq

/-- The PGC chart-of-accounts code family for cash/bank accounts. -/
def pgcCash : String := "57"

/-- Flatten windows to `(month, entry)` rows, as the source builds `rows`. -/
def flattenWindows (ws : List Window) : List (MonthKey × RawEntry) :=
  ws.flatMap (fun w => w.entries.map (fun e => (w.month, e)))

/-- Structural string prefix test (same as `String.isPrefixOf`). -/
def strStarts (p s : String) : Bool := p.data.isPrefixOf s.data

/-- `df["account"].str.startswith("57")`: keep cash/bank accounts. -/
def isCashEntry (e : RawEntry) : Bool := strStarts pgcCash e.account

/-- The cash/bank rows of the flattened ledger (`df_cash`). -/
def cashRows (ws : List Window) : List (MonthKey × RawEntry) :=
  (flattenWindows ws).filter (fun r => isCashEntry r.2)

/-- Net cash movement of one month: sum over its cash rows of debit minus
credit (`assign(net = debit - credit)` followed by the grouped sum). -/
def netChange (ws : List Window) (m : MonthKey) : ℚ :=
  (((cashRows ws).filter (fun r => r.1 == m)).map
    (fun r => r.2.debit - r.2.credit)).sum

/-- The `monthly_change` frame: one row per distinct cash month, keyed and
sorted by month, holding that month's net change. -/
def monthly_change (ws : List Window) : List (MonthKey × ℚ) :=
  (groupMonths ((cashRows ws).map (fun r => r.1))).map (fun m => (m, netChange ws m))

/-- Reverse cumulative sums: entry `i` is the sum of the net changes from
position `i` through the last month (`rev_cum_change`). -/
def revCum : List ℚ → List ℚ
  | [] => []
  | c :: t => (c + t.sum) :: revCum t

/-- `cash_balance_eur = snapshot_total - (rev_cum_change - net_change)`,
computed per row of the sorted net-change series. -/
def balancesFromLedger (anchor : ℚ) (cs : List ℚ) : List ℚ :=
  (cs.zip (revCum cs)).map (fun p => anchor - (p.2 - p.1))

/-- The output series of the reconstructor: months paired with their
reconstructed balances rounded to 2 decimals. -/
def buildSeries (anchor : ℚ) (mc : List (MonthKey × ℚ)) : List (MonthKey × ℚ) :=
  (mc.map (fun r => r.1)).zip
    ((balancesFromLedger anchor (mc.map (fun r => r.2))).map round2)

/-- `build_monthly_from_ledger`: the ledger-window file and the snapshot
anchor are `Option` inputs (missing file = `none`); missing files raise
before anything is produced, and an empty flattened ledger yields an empty
series.  The snapshot anchor is the summed balance of the snapshot file. -/
def build_monthly_from_ledger (ledgerFile : Option (List Window))
    (snapshotAnchor : Option ℚ) : Except LedgerError (List (MonthKey × ℚ)) :=
  match ledgerFile with
  | none => .error .missingLedgerFile
  | some ws =>
    match snapshotAnchor with
    | none => .error .missingSnapshotFile
    | some anchor =>
      if (flattenWindows ws).isEmpty then .ok []
      else .ok (buildSeries anchor (monthly_change ws))

-- ## Basic lemmas about the reconstruction

theorem revCum_nil : revCum [] = [] := rfl

theorem balancesFromLedger_cons (anchor c : ℚ) (t : List ℚ) :
    balancesFromLedger anchor (c :: t) =
      (anchor - t.sum) :: balancesFromLedger anchor t := by
  simp [balancesFromLedger, revCum]

theorem balancesFromLedger_length (anchor : ℚ) (cs : List ℚ) :
    (balancesFromLedger anchor cs).length = cs.length := by
  induction cs with
  | nil => rfl
  | cons c t ih => rw [balancesFromLedger_cons]; simp [ih]

/-- Closed form: the balance at position `i` is the anchor minus the sum of
all strictly later net changes. -/
theorem balancesFromLedger_getD (anchor : ℚ) (cs : List ℚ) :
    ∀ i, i < cs.length →
      (balancesFromLedger anchor cs).getD i 0 = anchor - (cs.drop (i + 1)).sum := by
  induction cs with
  | nil => intro i h; simp at h
  | cons c t ih =>
    intro i h
    rw [balancesFromLedger_cons]
    cases i with
    | zero => simp
    | succ j =>
      simp only [List.getD_cons_succ, List.drop_succ_cons]
      exact ih j (by simpa using h)

theorem drop_sum_succ (cs : List ℚ) (i : ℕ) (h : i + 1 < cs.length) :
    (cs.drop (i + 1)).sum = cs.getD (i + 1) 0 + (cs.drop (i + 2)).sum := by
  rw [List.drop_eq_getElem_cons h, List.sum_cons, List.getD_eq_getElem cs 0 h]

theorem sum_map_sub {α : Type} (l : List α) (f g : α → ℚ) :
    (l.map (fun x => f x - g x)).sum = (l.map f).sum - (l.map g).sum := by
  induction l with
  | nil => simp
  | cons a t ih =>
    simp only [List.map_cons, List.sum_cons, ih]
    ring

-- ## Claim C1

/-- C1 counterexample: with net changes 0 and 1/250 (that is, 0.004) and
anchor 0, the reconstructed balances are -0.004 and 0, which both round to
0.00; the difference of the rounded balances is 0, which does not reproduce
the original net change 0.004.  The round-trip law therefore fails after the
output is rounded to 2 decimal places. -/
theorem C1_rounded_round_trip_fails :
    round2 ((balancesFromLedger 0 [0, 1/250]).getD 1 0)
        - round2 ((balancesFromLedger 0 [0, 1/250]).getD 0 0)
      ≠ ([0, 1/250] : List ℚ).getD 1 0 := by
  have h0 : balancesFromLedger (0 : ℚ) [0, 1/250] = [-(1/250), 0] := by
    rw [balancesFromLedger_cons, balancesFromLedger_cons]
    norm_num [balancesFromLedger, revCum]
  have hr : round2 (-(1/250) : ℚ) = 0 := by
    rw [round2]
    have h1 : ((-(1/250) : ℚ) * 100) = -2/5 := by norm_num
    rw [h1, round_eq]
    have h2 : ((-2/5 : ℚ) + 1/2) = 1/10 := by norm_num
    rw [h2]
    have h3 : ⌊(1/10 : ℚ)⌋ = 0 := by
      rw [Int.floor_eq_zero_iff]
      refine Set.mem_Ico.mpr ⟨by norm_num, by norm_num⟩
    rw [h3]
    norm_num
  have hz : round2 (0 : ℚ) = 0 := by
    rw [round2]
    norm_num
  rw [h0]
  simp only [List.getD_cons_succ, List.getD_cons_zero]
  rw [hr, hz]
  norm_num

/-- C1 (amended): for any anchor and any month-sorted net-change series,
balance[i] = anchor - sum(net_change[i+1..last]); differences of consecutive
unrounded reconstructed balances reproduce the net-change series exactly;
and once the output is rounded to 2 decimal places the round-trip continues
to hold provided every net change is a whole number of cents. -/
theorem C1_cash_round_trip (anchor : ℚ) (cs : List ℚ) :
    (∀ i, i < cs.length →
        (balancesFromLedger anchor cs).getD i 0 = anchor - (cs.drop (i + 1)).sum)
    ∧ (∀ i, i + 1 < cs.length →
        (balancesFromLedger anchor cs).getD (i + 1) 0
            - (balancesFromLedger anchor cs).getD i 0 = cs.getD (i + 1) 0)
    ∧ ((∀ c ∈ cs, ∃ k : ℤ, c = (k : ℚ) / 100) →
        ∀ i, i + 1 < cs.length →
          round2 ((balancesFromLedger anchor cs).getD (i + 1) 0)
              - round2 ((balancesFromLedger anchor cs).getD i 0)
            = cs.getD (i + 1) 0) := by
  have hcf := balancesFromLedger_getD anchor cs
  have hstep : ∀ i, i + 1 < cs.length →
      (balancesFromLedger anchor cs).getD (i + 1) 0
          - (balancesFromLedger anchor cs).getD i 0 = cs.getD (i + 1) 0 := by
    intro i h
    rw [hcf (i + 1) h, hcf i (Nat.lt_of_succ_lt h), drop_sum_succ cs i h]
    ring
  refine ⟨hcf, hstep, ?_⟩
  intro hcent i h
  have hmem : cs.getD (i + 1) 0 ∈ cs := by
    rw [List.getD_eq_getElem cs 0 h]
    exact List.getElem_mem h
  obtain ⟨k, hk⟩ := hcent _ hmem
  have hb : (balancesFromLedger anchor cs).getD (i + 1) 0
      = (balancesFromLedger anchor cs).getD i 0 + (k : ℚ) / 100 := by
    have h2 := hstep i h
    rw [hk] at h2
    linarith
  rw [hb, hk, round2, round2]
  have h3 : ((balancesFromLedger anchor cs).getD i 0 + (k : ℚ) / 100) * 100
      = (balancesFromLedger anchor cs).getD i 0 * 100 + (k : ℚ) := by ring
  rw [h3, round_add_int]
  push_cast
  ring

/-- C1 witness: the amended round-trip law applied at anchor 5 and net
changes [2, 3]. -/
theorem C1_cash_round_trip_witness :
    (balancesFromLedger 5 [2, 3]).getD 1 0 - (balancesFromLedger 5 [2, 3]).getD 0 0
      = ([2, 3] : List ℚ).getD 1 0 :=
  (C1_cash_round_trip 5 [2, 3]).2.1 0 (by simp)

-- ## Claim C8

/-- A month whose window holds ledger entries, none on a cash account. -/
def mJan : MonthKey := "2024-01"

/-- A month whose window holds a cash-account ledger entry. -/
def mFeb : MonthKey := "2024-02"

/-- An account code outside the cash/bank family. -/
def accOther : String := "600"

/-- A cash/bank account code. -/
def accCash : String := "5720"

/-- A concrete ledger-window set: January has one non-cash entry only,
February has one cash entry. -/
def wsC8 : List Window :=
  [⟨mJan, [⟨accOther, 10, 0⟩]⟩, ⟨mFeb, [⟨accCash, 5, 1⟩]⟩]

/-- C8 counterexample: January is present in the ledger window set and has a
ledger entry, but no entry on a "57"-prefixed account, so `monthly_change`
contains no row for it: the output is not complete over the months of the
window set. -/
theorem C8_missing_month :
    mJan ∈ (flattenWindows wsC8).map (fun r => r.1)
      ∧ (monthly_change wsC8).countP (fun r => r.1 == mJan) = 0 := by
  constructor
  · decide
  · decide

/-- C8 (amended): `monthly_change` has exactly one row for every month that
has at least one ledger entry on a "57"-prefixed cash account (and no row
for any other month), and each row's value is the sum of debits minus the
sum of credits over that month's cash entries. -/
theorem C8_monthly_net_change (ws : List Window) (m : MonthKey) :
    ((monthly_change ws).countP (fun r => r.1 == m)
        = if m ∈ (cashRows ws).map (fun r => r.1) then 1 else 0)
    ∧ (∀ r ∈ monthly_change ws,
        r.2 = (((cashRows ws).filter (fun x => x.1 == r.1)).map
                  (fun x => x.2.debit)).sum
            - (((cashRows ws).filter (fun x => x.1 == r.1)).map
                  (fun x => x.2.credit)).sum) := by
  constructor
  · rw [monthly_change, countP_keyed]
    by_cases h : m ∈ (cashRows ws).map (fun r => r.1)
    · rw [if_pos h]
      exact List.count_eq_one_of_mem (nodup_groupMonths _) ((mem_groupMonths _ m).mpr h)
    · rw [if_neg h]
      exact List.count_eq_zero_of_not_mem (fun hc => h ((mem_groupMonths _ m).mp hc))
  · intro r hr
    rw [monthly_change] at hr
    obtain ⟨m', _, rfl⟩ := List.mem_map.mp hr
    show netChange ws m' = _
    rw [netChange, sum_map_sub]

/-- C8 witness: the amended completeness theorem applied to the concrete
window set, with the row-value clause discharged at the February row. -/
theorem C8_monthly_net_change_witness :
    ((monthly_change wsC8).countP (fun r => r.1 == mFeb)
        = if mFeb ∈ (cashRows wsC8).map (fun r => r.1) then 1 else 0)
    ∧ (mFeb, netChange wsC8 mFeb).2
        = (((cashRows wsC8).filter (fun x => x.1 == (mFeb, netChange wsC8 mFeb).1)).map
              (fun x => x.2.debit)).sum
          - (((cashRows wsC8).filter (fun x => x.1 == (mFeb, netChange wsC8 mFeb).1)).map
              (fun x => x.2.credit)).sum := by
  refine ⟨(C8_monthly_net_change wsC8 mFeb).1, ?_⟩
  have hm : monthly_change wsC8 = [(mFeb, netChange wsC8 mFeb)] := rfl
  refine (C8_monthly_net_change wsC8 mFeb).2 (mFeb, netChange wsC8 mFeb) ?_
  rw [hm]
  exact List.mem_singleton_self _

-- ## Claim C9

/-- C9: a missing ledger-window file or a missing snapshot file is a fatal
error raised before any series is produced, while an empty flattened ledger
terminates normally with an empty series. -/
theorem C9_empty_and_missing (ws : List Window) (anchor : ℚ) (s : Option ℚ) :
    ((flattenWindows ws).isEmpty = true →
        build_monthly_from_ledger (some ws) (some anchor) = .ok [])
    ∧ build_monthly_from_ledger none s = .error .missingLedgerFile
    ∧ build_monthly_from_ledger (some ws) none = .error .missingSnapshotFile := by
  refine ⟨fun h => ?_, rfl, rfl⟩
  simp [build_monthly_from_ledger, h]

/-- C9 witness: an empty window list with an arbitrary anchor produces the
empty series. -/
theorem C9_empty_and_missing_witness :
    build_monthly_from_ledger (some []) (some 7) = .ok [] :=
  (C9_empty_and_missing [] 7 none).1 rfl

-- ## Metrics engine shared model (metrics_pipeline.py)

/-- The empty string (pandas `fillna('')` target). -/
def emptyStr : String := ""

/-- `fillna('')` on a nullable string cell. -/
def fillna (s : Option String) : String := s.getD emptyStr

/-- Lowercasing of a string, as `.str.lower()` / `case=False` matching. -/
def lowerChars (s : String) : List Char := s.data.map Char.toLower

/-- Rebuild a string from lowered characters. -/
def lowerStr (s : String) : String := String.mk (lowerChars s)

/-- Contiguous sublist test over character lists. -/
def subListChars (n : List Char) : List Char → Bool
  | [] => n.isEmpty
  | c :: t => n.isPrefixOf (c :: t) || subListChars n t

/-- `Series.str.contains(pat, case=False)` for a literal pattern:
case-insensitive substring containment. -/
def containsCI (hay needle : String) : Bool :=
  subListChars (lowerChars needle) (lowerChars hay)

/-- One row of the Holded contacts table. -/
structure Contact where
  id : String
  tags : Option String
  type : Option String
  deriving Repr, DecidableEq

/-- One row of the Holded purchases table; the `date` column is carried as
its extracted YYYY-MM month. -/
structure Purchase where
  contact : String
  status : Int
  total_eur : ℚ
  month : MonthKey
  deriving Repr, DecidableEq

/-- One row of the ChartMogul customers roster; `customer_since` is carried
as its extracted YYYY-MM month, `none` when the source date is null. -/
structure Customer where
  uuid : String
  customer_since : Option MonthKey
  deriving Repr, DecidableEq

/-- The contact type required of cost suppliers. -/
def supplierStr : String := "supplier"

/-- The confirmed purchase status. -/
def confirmedStatus : Int := 1

/-- The in-place normalization every tagged-cost calculator applies to the
shared contacts frame: `tags`/`type` get `fillna('').astype(str)`. -/
def normalizeContact (c : Contact) : Contact :=
  { c with tags := some (fillna c.tags), type := some (fillna c.type) }

/-- Column-level normalization of the whole contacts table. -/
def normalizeContacts (cs : List Contact) : List Contact := cs.map normalizeContact

/-- The tag filter of the cost calculators: `tags` contains the tag
case-insensitively and `type` lowercases to "supplier". -/
def tagQualifies (c : Contact) (tag : String) : Bool :=
  containsCI (fillna c.tags) tag && (lowerStr (fillna c.type) == supplierStr)

/-- The supplier ids matching a tag (`df_contacts[...]['id']`). -/
def taggedIds (cs : List Contact) (tag : String) : List String :=
  (cs.filter (fun c => tagQualifies c tag)).map (fun c => c.id)

/-- The confirmed purchases of tag-matching suppliers
(`contact.isin(ids) & status == 1`). -/
def taggedPurchases (ps : List Purchase) (cs : List Contact) (tag : String) :
    List Purchase :=
  ps.filter (fun p => (taggedIds cs tag).contains p.contact
      && p.status == confirmedStatus)

/-- `groupby('month')['total_eur'].sum()`: one row per purchase month. -/
def monthlySum (ps : List Purchase) : List (MonthKey × ℚ) :=
  (groupMonths (ps.map (fun p => p.month))).map
    (fun m => (m, ((ps.filter (fun p => p.month == m)).map
                      (fun p => p.total_eur)).sum))

/-- Lookup of a monthly value with zero for a missing month (the effect of
`fillna(0)` after an outer join). -/
def lookupVal (t : List (MonthKey × ℚ)) (m : MonthKey) : ℚ :=
  ((t.find? (fun r => r.1 == m)).map (fun r => r.2)).getD 0

/-- The month keys of an outer join: left keys, then unseen right keys. -/
def mergeKeys (a b : List MonthKey) : List MonthKey :=
  a ++ b.filter (fun m => !(a.contains m))

/-- The tag of operating expenses. -/
def opexTag : String := "opex"

/-- The tag of cost of goods sold. -/
def cogsTag : String := "cogs"

/-- The tag of financial costs. -/
def finTag : String := "costes financieros"

/-- The tag of customer-acquisition spend. -/
def cacTag : String := "cac"

/-- `calculate_opex` (EUR variant, lines 1337-1407). -/
def calculate_opex (ps : List Purchase) (cs : List Contact) : List (MonthKey × ℚ) :=
  monthlySum (taggedPurchases ps cs opexTag)

/-- `calculate_cogs` (EUR variant, lines 1459-1523). -/
def calculate_cogs (ps : List Purchase) (cs : List Contact) : List (MonthKey × ℚ) :=
  monthlySum (taggedPurchases ps cs cogsTag)

/-- `calculate_financial_costs` (lines 1575-1634). -/
def calculate_financial_costs (ps : List Purchase) (cs : List Contact) :
    List (MonthKey × ℚ) :=
  monthlySum (taggedPurchases ps cs finTag)

/-- The CAC-tagged confirmed monthly spend of `calculate_cac` steps 1-4. -/
def cacCostsTable (ps : List Purchase) (cs : List Contact) : List (MonthKey × ℚ) :=
  monthlySum (taggedPurchases ps cs cacTag)

/-- The non-null acquisition rows: `(month of customer-since, uuid)`. -/
def sinceRows (customers : List Customer) : List (MonthKey × String) :=
  customers.filterMap (fun c => c.customer_since.map (fun m => (m, c.uuid)))

/-- `nunique`: the number of distinct values. -/
def distinctCount (l : List String) : ℕ := (firstDedup l).length

/-- `calculate_cac` step 5: distinct new customers per acquisition month. -/
def newCustomersTable (customers : List Customer) : List (MonthKey × ℚ) :=
  (groupMonths ((sinceRows customers).map (fun r => r.1))).map
    (fun m => (m, (distinctCount (((sinceRows customers).filter
        (fun r => r.1 == m)).map (fun r => r.2)) : ℚ)))

/-- One output row of `calculate_cac`. -/
structure CacRow where
  month : MonthKey
  cac_costs : ℚ
  new_customers : ℚ
  cac : ℚ
  deriving Repr, DecidableEq

/-- The row of `calculate_cac` for one merged month: zero-filled lookups and
the guarded division (0 when there are no new customers). -/
def cacRowFor (nc kc : List (MonthKey × ℚ)) (m : MonthKey) : CacRow :=
  { month := m, cac_costs := lookupVal kc m, new_customers := lookupVal nc m,
    cac := if lookupVal nc m > 0 then lookupVal kc m / lookupVal nc m else 0 }

/-- `calculate_cac` (lines 1068-1194): outer join of the new-customer counts
with the CAC-tagged confirmed spend, zero-filled, with the division rule. -/
def calculate_cac (ps : List Purchase) (cs : List Contact)
    (customers : List Customer) : List CacRow :=
  (mergeKeys ((newCustomersTable customers).map (fun r => r.1))
      ((cacCostsTable ps cs).map (fun r => r.1))).map
    (cacRowFor (newCustomersTable customers) (cacCostsTable ps cs))

-- ## Lookup lemmas for monthly tables

/-- Lookup in a table built over grouped keys: the value function under the
key when the key occurs, 0 otherwise. -/
theorem lookupVal_groupTable (ks : List MonthKey) (g : MonthKey → ℚ) (m : MonthKey) :
    lookupVal ((groupMonths ks).map (fun x => (x, g x))) m
      = if m ∈ ks then g m else 0 := by
  rw [lookupVal, find?_keyed]
  by_cases h : m ∈ ks
  · rw [if_pos ((mem_groupMonths ks m).mpr h), if_pos h]
    rfl
  · rw [if_neg (fun hc => h ((mem_groupMonths ks m).mp hc)), if_neg h]
    rfl

theorem lookup_monthlySum (ps : List Purchase) (m : MonthKey) :
    lookupVal (monthlySum ps) m
      = ((ps.filter (fun p => p.month == m)).map (fun p => p.total_eur)).sum := by
  rw [monthlySum, lookupVal_groupTable]
  by_cases h : m ∈ ps.map (fun p => p.month)
  · rw [if_pos h]
  · rw [if_neg h]
    have hnil : ps.filter (fun p => p.month == m) = [] := by
      rw [List.filter_eq_nil_iff]
      intro p hp hpm
      exact h (List.mem_map.mpr ⟨p, hp, by simpa using hpm⟩)
    rw [hnil]
    rfl

/-- Membership in the tag-matching supplier ids, as an existential scan of
the contacts table. -/
theorem taggedIds_contains (cs : List Contact) (tag : String) (x : String) :
    (taggedIds cs tag).contains x
      = cs.any (fun c => c.id == x && tagQualifies c tag) := by
  induction cs with
  | nil => rfl
  | cons c t ih =>
    simp only [taggedIds, List.filter_cons] at ih ⊢
    by_cases hq : tagQualifies c tag = true
    · rw [if_pos hq, List.map_cons, List.contains_cons, List.any_cons, ih, hq]
      have hcomm : (x == c.id) = (c.id == x) := by
        by_cases hx : x = c.id
        · subst hx; rfl
        · have h1 : (x == c.id) = false := beq_false_of_ne hx
          have h2 : (c.id == x) = false := beq_false_of_ne (fun he => hx he.symm)
          rw [h1, h2]
      rw [hcomm, Bool.and_true]
    · rw [if_neg hq, List.any_cons, ih]
      have : (tagQualifies c tag) = false := by
        cases hx : tagQualifies c tag with
        | true => exact absurd hx hq
        | false => rfl
      rw [this, Bool.and_false, Bool.false_or]

/-- The claim-side bucket predicate: a purchase of month `m` counts for a
tag when it is confirmed and its contact id belongs to a contact whose
null-filled tags contain the tag case-insensitively and whose type equals
"supplier" case-insensitively. -/
def claimBucket (cs : List Contact) (tag : String) (m : MonthKey)
    (p : Purchase) : Bool :=
  p.month == m
    && (cs.any (fun c => c.id == p.contact
          && (containsCI (fillna c.tags) tag
                && (lowerStr (fillna c.type) == supplierStr)))
        && p.status == confirmedStatus)

theorem taggedPurchases_filter_month (ps : List Purchase) (cs : List Contact)
    (tag : String) (m : MonthKey) :
    (taggedPurchases ps cs tag).filter (fun p => p.month == m)
      = ps.filter (claimBucket cs tag m) := by
  rw [taggedPurchases, List.filter_filter]
  apply List.filter_congr
  intro p _
  rw [claimBucket, taggedIds_contains]
  simp only [tagQualifies]

-- ## Claim C5

/-- A tags cell holding the bucket tag among other text, in capitals. -/
def mixedTag : String := "OPEX, Vendor"

/-- C5: for the EUR-variant tagged-cost calculators, the monthly bucket
value equals the sum of `total_eur` over exactly the purchases satisfying
the claim predicate (confirmed status 1, contact tagged case-insensitively,
supplier type case-insensitively); a contact tagged "OPEX, Vendor" is
classified exactly as one tagged "opex"; and dropping the unconfirmed
purchases leaves every bucket unchanged. -/
theorem C5_tagged_cost_classification :
    (∀ (ps : List Purchase) (cs : List Contact) (tag : String) (m : MonthKey),
        lookupVal (monthlySum (taggedPurchases ps cs tag)) m
          = ((ps.filter (claimBucket cs tag m)).map (fun p => p.total_eur)).sum)
    ∧ (∀ (ps : List Purchase) (cs : List Contact) (m : MonthKey),
        lookupVal (calculate_opex ps cs) m
          = ((ps.filter (claimBucket cs opexTag m)).map (fun p => p.total_eur)).sum)
    ∧ (∀ (ps : List Purchase) (i : String),
        calculate_opex ps [⟨i, some mixedTag, some supplierStr⟩]
          = calculate_opex ps [⟨i, some opexTag, some supplierStr⟩])
    ∧ (∀ (ps : List Purchase) (cs : List Contact),
        calculate_opex (ps.filter (fun p => p.status == confirmedStatus)) cs
          = calculate_opex ps cs) := by
  have hmain : ∀ (ps : List Purchase) (cs : List Contact) (tag : String) (m : MonthKey),
      lookupVal (monthlySum (taggedPurchases ps cs tag)) m
        = ((ps.filter (claimBucket cs tag m)).map (fun p => p.total_eur)).sum := by
    intro ps cs tag m
    rw [lookup_monthlySum, taggedPurchases_filter_month]
  refine ⟨hmain, fun ps cs m => hmain ps cs opexTag m, ?_, ?_⟩
  · intro ps i
    have h1 : taggedIds [⟨i, some mixedTag, some supplierStr⟩] opexTag = [i] := rfl
    have h2 : taggedIds [⟨i, some opexTag, some supplierStr⟩] opexTag = [i] := rfl
    rw [calculate_opex, calculate_opex, taggedPurchases, taggedPurchases, h1, h2]
  · intro ps cs
    rw [calculate_opex, calculate_opex, taggedPurchases, taggedPurchases,
      List.filter_filter]
    congr 1
    apply List.filter_congr
    intro p _
    cases hc : (taggedIds cs opexTag).contains p.contact
      <;> cases hs : p.status == confirmedStatus <;> simp [hc, hs]

-- ## Claim C4

theorem mem_mergeKeys (a b : List MonthKey) (x : MonthKey) :
    x ∈ mergeKeys a b ↔ x ∈ a ∨ x ∈ b := by
  rw [mergeKeys, List.mem_append]
  constructor
  · rintro (h | h)
    · exact Or.inl h
    · exact Or.inr (List.mem_of_mem_filter h)
  · rintro (h | h)
    · exact Or.inl h
    · by_cases ha : x ∈ a
      · exact Or.inl ha
      · refine Or.inr (List.mem_filter.mpr ⟨h, ?_⟩)
        simp [ha]

theorem nodup_mergeKeys (a b : List MonthKey) (ha : a.Nodup) (hb : b.Nodup) :
    (mergeKeys a b).Nodup := by
  rw [mergeKeys]
  refine List.Nodup.append ha (hb.filter _) ?_
  intro x hxa hxf
  have h2 := (List.mem_filter.mp hxf).2
  simp at h2
  exact h2 hxa

theorem months_groupTable (ks : List MonthKey) (g : MonthKey → ℚ) :
    (((groupMonths ks).map (fun x => (x, g x))).map (fun r => r.1)) = groupMonths ks := by
  rw [List.map_map]
  show (groupMonths ks).map (fun x => x) = groupMonths ks
  exact List.map_id _

theorem lookup_newCustomers (customers : List Customer) (m : MonthKey) :
    lookupVal (newCustomersTable customers) m
      = (distinctCount (((sinceRows customers).filter
            (fun r => r.1 == m)).map (fun r => r.2)) : ℚ) := by
  rw [newCustomersTable, lookupVal_groupTable]
  by_cases h : m ∈ (sinceRows customers).map (fun r => r.1)
  · rw [if_pos h]
  · rw [if_neg h]
    have hnil : (sinceRows customers).filter (fun r => r.1 == m) = [] := by
      rw [List.filter_eq_nil_iff]
      intro r hr hrm
      exact h (List.mem_map.mpr ⟨r, hr, by simpa using hrm⟩)
    rw [hnil]
    simp [distinctCount, firstDedup, dedupAux]

/-- C4: `calculate_cac` has exactly one row per month of the outer-joined
union of the new-customer months and the CAC-spend months; each row counts
new customers as the distinct uuids whose non-null customer-since month is
that row's month, carries the CAC-tagged confirmed spend of that month
(zero-filled), and divides spend by new customers only when the count is
positive, returning exactly 0 otherwise (the value is a total rational:
never null, NaN or infinite). -/
theorem C4_cac (ps : List Purchase) (cs : List Contact)
    (customers : List Customer) (m : MonthKey) :
    ((calculate_cac ps cs customers).countP (fun r => r.month == m)
        = if m ∈ ((newCustomersTable customers).map (fun r => r.1))
              ∨ m ∈ ((cacCostsTable ps cs).map (fun r => r.1)) then 1 else 0)
    ∧ (∀ r ∈ calculate_cac ps cs customers,
        r.new_customers = (distinctCount (((sinceRows customers).filter
            (fun x => x.1 == r.month)).map (fun x => x.2)) : ℚ)
        ∧ r.cac_costs = ((ps.filter (claimBucket cs cacTag r.month)).map
            (fun p => p.total_eur)).sum
        ∧ r.cac = if r.new_customers > 0
            then r.cac_costs / r.new_customers else 0) := by
  constructor
  · rw [calculate_cac, List.countP_map]
    show List.count m (mergeKeys ((newCustomersTable customers).map (fun r => r.1))
        ((cacCostsTable ps cs).map (fun r => r.1))) = _
    have hn1 : ((newCustomersTable customers).map (fun r => r.1)).Nodup := by
      rw [newCustomersTable, months_groupTable]
      exact nodup_groupMonths _
    have hn2 : ((cacCostsTable ps cs).map (fun r => r.1)).Nodup := by
      rw [cacCostsTable, monthlySum, months_groupTable]
      exact nodup_groupMonths _
    by_cases h : m ∈ ((newCustomersTable customers).map (fun r => r.1))
        ∨ m ∈ ((cacCostsTable ps cs).map (fun r => r.1))
    · rw [if_pos h]
      exact List.count_eq_one_of_mem (nodup_mergeKeys _ _ hn1 hn2)
        ((mem_mergeKeys _ _ m).mpr h)
    · rw [if_neg h]
      exact List.count_eq_zero_of_not_mem (fun hc => h ((mem_mergeKeys _ _ m).mp hc))
  · intro r hr
    rw [calculate_cac] at hr
    obtain ⟨m', _, rfl⟩ := List.mem_map.mp hr
    refine ⟨?_, ?_, ?_⟩
    · simp only [cacRowFor]
      exact lookup_newCustomers customers m'
    · simp only [cacRowFor]
      rw [cacCostsTable, lookup_monthlySum, taggedPurchases_filter_month]
    · simp only [cacRowFor]

/-- A sample customer uuid. -/
def u1 : String := "cust-1"

/-- A one-customer roster acquired in February. -/
def cust4 : List Customer := [⟨u1, some mFeb⟩]

/-- C4 witness: the theorem applied to the one-customer roster with no
purchases and no contacts, discharged at the February row. -/
theorem C4_cac_witness :
    ((calculate_cac [] [] cust4).countP (fun r => r.month == mFeb)
        = if mFeb ∈ ((newCustomersTable cust4).map (fun r => r.1))
              ∨ mFeb ∈ ((cacCostsTable [] []).map (fun r => r.1)) then 1 else 0)
    ∧ (cacRowFor (newCustomersTable cust4) (cacCostsTable [] []) mFeb).cac
        = if (cacRowFor (newCustomersTable cust4) (cacCostsTable [] []) mFeb).new_customers > 0
            then (cacRowFor (newCustomersTable cust4) (cacCostsTable [] []) mFeb).cac_costs
                / (cacRowFor (newCustomersTable cust4) (cacCostsTable [] []) mFeb).new_customers
            else 0 := by
  refine ⟨(C4_cac [] [] cust4 mFeb).1, ?_⟩
  have hm : calculate_cac [] [] cust4
      = [cacRowFor (newCustomersTable cust4) (cacCostsTable [] []) mFeb] := rfl
  exact ((C4_cac [] [] cust4 mFeb).2 _
    (by rw [hm]; exact List.mem_singleton_self _)).2.2

-- ## Claim C3

/-- The row of `calculate_ebitda` for one merged month: zero-filled lookups
feeding `mrr - (opex + cogs + financial_costs + cac_costs)`. -/
def ebitdaRowFor (mrr opex cogs fincosts cac : List (MonthKey × ℚ))
    (m : MonthKey) : MonthKey × ℚ :=
  (m, lookupVal mrr m
        - (lookupVal opex m + lookupVal cogs m + lookupVal fincosts m
            + lookupVal cac m))

/-- `calculate_ebitda` (lines 1689-1744): outer join of the five component
tables on month, zero-fill, then the subtraction. -/
def calculate_ebitda (mrr opex cogs fincosts cac : List (MonthKey × ℚ)) :
    List (MonthKey × ℚ) :=
  (mergeKeys (mergeKeys (mergeKeys (mergeKeys (mrr.map (fun r => r.1))
      (opex.map (fun r => r.1))) (cogs.map (fun r => r.1)))
      (fincosts.map (fun r => r.1))) (cac.map (fun r => r.1))).map
    (ebitdaRowFor mrr opex cogs fincosts cac)

/-- `calculate_burn_rate` (lines 1871-1909): `burn_rate = abs(ebitda)`. -/
def calculate_burn_rate (eb : List (MonthKey × ℚ)) : List (MonthKey × ℚ) :=
  eb.map (fun r => (r.1, |r.2|))

/-- C3: the months of `calculate_ebitda` are exactly the union of the five
input tables' months, one row each, with value
`mrr - (opex + cogs + financial_costs + cac_costs)` under zero-filled
lookups; `calculate_burn_rate` maps every row to its absolute value, so
burn rate is non-negative and a positive ebitda yields that same positive
value, not 0. -/
theorem C3_ebitda_burn (mrr opex cogs fincosts cac : List (MonthKey × ℚ))
    (h1 : (mrr.map (fun r => r.1)).Nodup) (h2 : (opex.map (fun r => r.1)).Nodup)
    (h3 : (cogs.map (fun r => r.1)).Nodup)
    (h4 : (fincosts.map (fun r => r.1)).Nodup)
    (h5 : (cac.map (fun r => r.1)).Nodup) :
    (∀ x, x ∈ (calculate_ebitda mrr opex cogs fincosts cac).map (fun r => r.1)
        ↔ (x ∈ mrr.map (fun r => r.1) ∨ x ∈ opex.map (fun r => r.1)
            ∨ x ∈ cogs.map (fun r => r.1) ∨ x ∈ fincosts.map (fun r => r.1)
            ∨ x ∈ cac.map (fun r => r.1)))
    ∧ ((calculate_ebitda mrr opex cogs fincosts cac).map (fun r => r.1)).Nodup
    ∧ (∀ r ∈ calculate_ebitda mrr opex cogs fincosts cac,
        r.2 = lookupVal mrr r.1
            - (lookupVal opex r.1 + lookupVal cogs r.1 + lookupVal fincosts r.1
                + lookupVal cac r.1))
    ∧ (∀ e : List (MonthKey × ℚ), ∀ r ∈ e,
        (r.1, |r.2|) ∈ calculate_burn_rate e ∧ 0 ≤ |r.2|
          ∧ (0 ≤ r.2 → (r.1, r.2) ∈ calculate_burn_rate e))
    ∧ (∀ e : List (MonthKey × ℚ), ∀ s ∈ calculate_burn_rate e,
        ∃ r ∈ e, s = (r.1, |r.2|)) := by
  have hmonths : (calculate_ebitda mrr opex cogs fincosts cac).map (fun r => r.1)
      = mergeKeys (mergeKeys (mergeKeys (mergeKeys (mrr.map (fun r => r.1))
          (opex.map (fun r => r.1))) (cogs.map (fun r => r.1)))
          (fincosts.map (fun r => r.1))) (cac.map (fun r => r.1)) := by
    rw [calculate_ebitda, List.map_map]
    show List.map (fun x => x) _ = _
    exact List.map_id _
  refine ⟨?_, ?_, ?_, ?_, ?_⟩
  · intro x
    rw [hmonths, mem_mergeKeys, mem_mergeKeys, mem_mergeKeys, mem_mergeKeys]
    tauto
  · rw [hmonths]
    exact nodup_mergeKeys _ _
      (nodup_mergeKeys _ _ (nodup_mergeKeys _ _ (nodup_mergeKeys _ _ h1 h2) h3) h4) h5
  · intro r hr
    rw [calculate_ebitda] at hr
    obtain ⟨m', _, rfl⟩ := List.mem_map.mp hr
    rfl
  · intro e r hr
    refine ⟨List.mem_map_of_mem _ hr, abs_nonneg _, fun hpos => ?_⟩
    have h2 : |r.2| = r.2 := abs_of_nonneg hpos
    rw [show ((r.1, r.2) : MonthKey × ℚ) = (r.1, |r.2|) by rw [h2]]
    exact List.mem_map_of_mem _ hr
  · intro e s hs
    obtain ⟨r, hr, rfl⟩ := List.mem_map.mp hs
    exact ⟨r, hr, rfl⟩

/-- The spec scenario tables: one month, `mrr = 1000`, `opex = 300`,
`cogs = 200`, `financial_costs = 50`, `cac_costs = 50`. -/
def mrrT3 : List (MonthKey × ℚ) := [(mFeb, 1000)]

/-- Scenario opex table. -/
def opexT3 : List (MonthKey × ℚ) := [(mFeb, 300)]

/-- Scenario cogs table. -/
def cogsT3 : List (MonthKey × ℚ) := [(mFeb, 200)]

/-- Scenario financial-costs table. -/
def finT3 : List (MonthKey × ℚ) := [(mFeb, 50)]

/-- Scenario cac-costs table. -/
def cacT3 : List (MonthKey × ℚ) := [(mFeb, 50)]

/-- C3 witness: the theorem applied to the spec scenario tables, discharged
at the single merged row. -/
theorem C3_ebitda_burn_witness :
    (ebitdaRowFor mrrT3 opexT3 cogsT3 finT3 cacT3 mFeb).2
        = lookupVal mrrT3 (ebitdaRowFor mrrT3 opexT3 cogsT3 finT3 cacT3 mFeb).1
          - (lookupVal opexT3 (ebitdaRowFor mrrT3 opexT3 cogsT3 finT3 cacT3 mFeb).1
              + lookupVal cogsT3 (ebitdaRowFor mrrT3 opexT3 cogsT3 finT3 cacT3 mFeb).1
              + lookupVal finT3 (ebitdaRowFor mrrT3 opexT3 cogsT3 finT3 cacT3 mFeb).1
              + lookupVal cacT3 (ebitdaRowFor mrrT3 opexT3 cogsT3 finT3 cacT3 mFeb).1) := by
  have hm : calculate_ebitda mrrT3 opexT3 cogsT3 finT3 cacT3
      = [ebitdaRowFor mrrT3 opexT3 cogsT3 finT3 cacT3 mFeb] := rfl
  exact (C3_ebitda_burn mrrT3 opexT3 cogsT3 finT3 cacT3
      (by decide) (by decide) (by decide) (by decide) (by decide)).2.2.1 _
    (by rw [hm]; exact List.mem_singleton_self _)

-- ## Claim C7

/-- One row of the ChartMogul MRR-components table (vendor field names
`mrr-new-business`, `mrr-expansion`, `mrr-contraction`, `mrr-churn`); the
`date` column is carried as its extracted YYYY-MM month. -/
structure MrrRow where
  month : MonthKey
  mrr : ℚ
  newBusiness : ℚ
  expansion : ℚ
  contraction : ℚ
  churn : ℚ
  deriving Repr, DecidableEq

/-- `calculate_new_mrr` (lines 294-330): monthly sums of
`mrr-new-business` (no absolute value taken). -/
def calculate_new_mrr (rows : List MrrRow) : List (MonthKey × ℚ) :=
  (groupMonths (rows.map (fun r => r.month))).map
    (fun m => (m, ((rows.filter (fun r => r.month == m)).map
        (fun r => r.newBusiness)).sum))

/-- `calculate_churned_mrr` (lines 369-412): absolute value of `mrr-churn`
per row, then monthly sums. -/
def calculate_churned_mrr (rows : List MrrRow) : List (MonthKey × ℚ) :=
  (groupMonths (rows.map (fun r => r.month))).map
    (fun m => (m, ((rows.filter (fun r => r.month == m)).map
        (fun r => |r.churn|)).sum))

/-- `calculate_contraction_mrr` (lines 212-256): absolute value of
`mrr-contraction` per row, then monthly sums. -/
def calculate_contraction_mrr (rows : List MrrRow) : List (MonthKey × ℚ) :=
  (groupMonths (rows.map (fun r => r.month))).map
    (fun m => (m, ((rows.filter (fun r => r.month == m)).map
        (fun r => |r.contraction|)).sum))

/-- The month of the specification scenario. -/
def mMar : MonthKey := "2024-03"

/-- The scenario rows: two March rows with `mrr-new-business` 100 and 50,
and `mrr-churn` -20 on the first row. -/
def mrrScenario : List MrrRow :=
  [⟨mMar, 0, 100, 0, 0, -20⟩, ⟨mMar, 0, 50, 0, 0, 0⟩]

/-- C7: churned and contraction MRR are per-month sums of absolute values
of the upstream fields, hence non-negative for every input; on the scenario
rows the aggregators output `new_mrr = 150` and `churned_mrr = 20`. -/
theorem C7_mrr_sign_normalization (rows : List MrrRow) :
    (∀ r ∈ calculate_churned_mrr rows,
        r.2 = ((rows.filter (fun x => x.month == r.1)).map
            (fun x => |x.churn|)).sum
          ∧ 0 ≤ r.2)
    ∧ (∀ r ∈ calculate_contraction_mrr rows,
        r.2 = ((rows.filter (fun x => x.month == r.1)).map
            (fun x => |x.contraction|)).sum
          ∧ 0 ≤ r.2)
    ∧ calculate_new_mrr mrrScenario = [(mMar, 150)]
    ∧ calculate_churned_mrr mrrScenario = [(mMar, 20)] := by
  refine ⟨?_, ?_, ?_, ?_⟩
  · intro r hr
    obtain ⟨m', _, rfl⟩ := List.mem_map.mp hr
    refine ⟨rfl, List.sum_nonneg ?_⟩
    intro x hx
    obtain ⟨y, _, rfl⟩ := List.mem_map.mp hx
    exact abs_nonneg _
  · intro r hr
    obtain ⟨m', _, rfl⟩ := List.mem_map.mp hr
    refine ⟨rfl, List.sum_nonneg ?_⟩
    intro x hx
    obtain ⟨y, _, rfl⟩ := List.mem_map.mp hx
    exact abs_nonneg _
  · have h1 : calculate_new_mrr mrrScenario
        = [(mMar, ((mrrScenario.filter (fun r => r.month == mMar)).map
            (fun r => r.newBusiness)).sum)] := rfl
    have h2 : (mrrScenario.filter (fun r => r.month == mMar)).map
        (fun r => r.newBusiness) = [100, 50] := rfl
    rw [h1, h2]
    norm_num
  · have h1 : calculate_churned_mrr mrrScenario
        = [(mMar, ((mrrScenario.filter (fun r => r.month == mMar)).map
            (fun r => |r.churn|)).sum)] := rfl
    have h2 : (mrrScenario.filter (fun r => r.month == mMar)).map
        (fun r => |r.churn|) = [|(-20 : ℚ)|, |(0 : ℚ)|] := rfl
    rw [h1, h2]
    norm_num

/-- The churned-MRR row of the scenario. -/
def churnRow7 : MonthKey × ℚ :=
  (mMar, ((mrrScenario.filter (fun x => x.month == mMar)).map
      (fun x => |x.churn|)).sum)

/-- C7 witness: the sign-normalization theorem discharged at the scenario's
churned-MRR row. -/
theorem C7_mrr_sign_normalization_witness :
    churnRow7.2 = ((mrrScenario.filter (fun x => x.month == churnRow7.1)).map
        (fun x => |x.churn|)).sum
      ∧ 0 ≤ churnRow7.2 := by
  have hm : calculate_churned_mrr mrrScenario = [churnRow7] := rfl
  exact (C7_mrr_sign_normalization mrrScenario).1 churnRow7
    (by rw [hm]; exact List.mem_singleton_self _)

-- ## Claim C6

/-- One output row of `calculate_runway`: the runway is `Option`-valued;
`none` is the null sentinel the source writes when `burn_rate == 0`. -/
structure RunwayRow where
  month : MonthKey
  cash_balance_eur : ℚ
  runway : Option ℚ
  deriving Repr, DecidableEq

/-- `groupby('month')['cash_balance_eur'].last()`: the last recorded cash
balance of a month, if any. -/
def lastCash (cash : List (MonthKey × ℚ)) (m : MonthKey) : Option ℚ :=
  ((cash.filter (fun r => r.1 == m)).getLast?).map (fun r => r.2)

/-- One runway row: `round(cash / burn, 2)` when the burn is non-zero,
`None` otherwise. -/
def runwayRowFor (cashOf : MonthKey → ℚ) (r : MonthKey × ℚ) : RunwayRow :=
  { month := r.1, cash_balance_eur := cashOf r.1,
    runway := if r.2 ≠ 0 then some (round2 (cashOf r.1 / r.2)) else none }

/-- `calculate_runway` (lines 1951-2024), constant-cash path. -/
def calculate_runway_const (burn : List (MonthKey × ℚ)) (cash : ℚ) :
    List RunwayRow :=
  burn.map (runwayRowFor (fun _ => cash))

/-- `calculate_runway`, treasury-DataFrame path: the monthly last cash
balances are outer-merged into the burn table and zero-filled.  The model
ranges over the months of the burn table, where the burn rate is a number;
a treasury month absent from the burn table has no burn value in the source
(a float NaN) and is outside the claim. -/
def calculate_runway_df (burn cash : List (MonthKey × ℚ)) : List RunwayRow :=
  burn.map (runwayRowFor (fun m => (lastCash cash m).getD 0))

/-- C6: on both cash paths, every burn-table month yields one runway row;
its runway is `round(cash_balance_eur / burn_rate, 2)` when the burn rate
is non-zero and the null sentinel `none` when the burn rate is zero --
never 0 and never an infinity (the runway is an `Option` over exact
rationals). -/
theorem C6_runway_sentinel (burn cash : List (MonthKey × ℚ)) (c : ℚ) :
    (∀ r ∈ burn,
        runwayRowFor (fun m => (lastCash cash m).getD 0) r
            ∈ calculate_runway_df burn cash
        ∧ (r.2 = 0 →
            (runwayRowFor (fun m => (lastCash cash m).getD 0) r).runway = none)
        ∧ (r.2 ≠ 0 →
            (runwayRowFor (fun m => (lastCash cash m).getD 0) r).runway
              = some (round2 ((lastCash cash r.1).getD 0 / r.2))))
    ∧ (∀ s ∈ calculate_runway_df burn cash, ∃ r ∈ burn,
        s = runwayRowFor (fun m => (lastCash cash m).getD 0) r)
    ∧ (∀ r ∈ burn,
        runwayRowFor (fun _ => c) r ∈ calculate_runway_const burn c
        ∧ (r.2 = 0 → (runwayRowFor (fun _ => c) r).runway = none)
        ∧ (r.2 ≠ 0 →
            (runwayRowFor (fun _ => c) r).runway = some (round2 (c / r.2)))) := by
  refine ⟨?_, ?_, ?_⟩
  · intro r hr
    refine ⟨List.mem_map_of_mem _ hr, fun h0 => ?_, fun hne => ?_⟩
    · simp [runwayRowFor, h0]
    · simp [runwayRowFor, hne]
  · intro s hs
    obtain ⟨r, hr, rfl⟩ := List.mem_map.mp hs
    exact ⟨r, hr, rfl⟩
  · intro r hr
    refine ⟨List.mem_map_of_mem _ hr, fun h0 => ?_, fun hne => ?_⟩
    · simp [runwayRowFor, h0]
    · simp [runwayRowFor, hne]

/-- A burn table whose single month has a zero burn rate. -/
def burn6 : List (MonthKey × ℚ) := [(mFeb, 0)]

/-- C6 witness: a month with zero burn rate and an empty treasury table
yields the null runway sentinel. -/
theorem C6_runway_sentinel_witness :
    (runwayRowFor (fun m => (lastCash [] m).getD 0) (mFeb, 0)).runway = none :=
  ((C6_runway_sentinel burn6 [] 0).1 (mFeb, 0)
    (List.mem_singleton_self _)).2.1 rfl

-- ## Claim C10

/-- `calculate_opex` with its state effect on the shared contacts frame:
lines 1360-1361 assign the null-filled stringified `tags`/`type` columns
back into the caller's `df_contacts` before filtering. -/
def calculate_opex_state (ps : List Purchase) (cs : List Contact) :
    (List Contact) × List (MonthKey × ℚ) :=
  (normalizeContacts cs, calculate_opex ps (normalizeContacts cs))

/-- `calculate_cogs` with its state effect (lines 1482-1483). -/
def calculate_cogs_state (ps : List Purchase) (cs : List Contact) :
    (List Contact) × List (MonthKey × ℚ) :=
  (normalizeContacts cs, calculate_cogs ps (normalizeContacts cs))

/-- `calculate_financial_costs` with its state effect (lines 1598-1599). -/
def calculate_financial_costs_state (ps : List Purchase) (cs : List Contact) :
    (List Contact) × List (MonthKey × ℚ) :=
  (normalizeContacts cs, calculate_financial_costs ps (normalizeContacts cs))

/-- `calculate_cac` with its state effect on contacts (lines 1108-1109);
the customers frame is copied by the source and left unchanged. -/
def calculate_cac_state (ps : List Purchase) (cs : List Contact)
    (customers : List Customer) : (List Contact) × List CacRow :=
  (normalizeContacts cs, calculate_cac ps (normalizeContacts cs) customers)

/-- A contacts table holding a contact with null tags and type. -/
def contactsNull : List Contact := [⟨u1, none, none⟩]

/-- C10 counterexample: `calculate_opex` does not leave its contacts input
unchanged -- a null `tags`/`type` cell is overwritten with the empty
string in the shared frame. -/
theorem C10_mutation_counterexample :
    (calculate_opex_state [] contactsNull).1 ≠ contactsNull := by decide

theorem taggedIds_normalize (cs : List Contact) (tag : String) :
    taggedIds (normalizeContacts cs) tag = taggedIds cs tag := by
  rw [taggedIds, taggedIds, normalizeContacts, List.filter_map, List.map_map]
  rfl

/-- C10 (amended): the four tagged-cost calculators each mutate the shared
contacts table, replacing null `tags`/`type` cells with empty strings; this
normalization is idempotent (so repeated mutation by later calculators is
harmless) and never changes any of their returned tables; all other inputs
are left untouched, every other communication being the returned table. -/
theorem C10_contacts_mutation (ps : List Purchase) (cs : List Contact)
    (customers : List Customer) :
    ((calculate_opex_state ps cs).1 = normalizeContacts cs
      ∧ (calculate_cogs_state ps cs).1 = normalizeContacts cs
      ∧ (calculate_financial_costs_state ps cs).1 = normalizeContacts cs
      ∧ (calculate_cac_state ps cs customers).1 = normalizeContacts cs)
    ∧ normalizeContacts (normalizeContacts cs) = normalizeContacts cs
    ∧ ((calculate_opex_state ps cs).2 = calculate_opex ps cs
      ∧ (calculate_cogs_state ps cs).2 = calculate_cogs ps cs
      ∧ (calculate_financial_costs_state ps cs).2 = calculate_financial_costs ps cs
      ∧ (calculate_cac_state ps cs customers).2 = calculate_cac ps cs customers) := by
  refine ⟨⟨rfl, rfl, rfl, rfl⟩, ?_, ?_, ?_, ?_, ?_⟩
  · simp only [normalizeContacts, List.map_map]
    rfl
  · show calculate_opex ps (normalizeContacts cs) = calculate_opex ps cs
    rw [calculate_opex, calculate_opex, taggedPurchases, taggedPurchases,
      taggedIds_normalize]
  · show calculate_cogs ps (normalizeContacts cs) = calculate_cogs ps cs
    rw [calculate_cogs, calculate_cogs, taggedPurchases, taggedPurchases,
      taggedIds_normalize]
  · show calculate_financial_costs ps (normalizeContacts cs)
        = calculate_financial_costs ps cs
    rw [calculate_financial_costs, calculate_financial_costs, taggedPurchases,
      taggedPurchases, taggedIds_normalize]
  · show calculate_cac ps (normalizeContacts cs) customers
        = calculate_cac ps cs customers
    rw [calculate_cac, calculate_cac, cacCostsTable, cacCostsTable,
      taggedPurchases, taggedPurchases, taggedIds_normalize]

-- ## Claim C2: the final merge of run_pipeline

/-- A pandas metric frame keyed by month: named data columns and one row
per month, each row an association list from column name to a cell that is
either a rational or missing (NaN). -/
structure PTable where
  cols : List String
  rows : List (MonthKey × List (String × Option ℚ))
  deriving Repr, DecidableEq

/-- The months of a table, in row order. -/
def PTable.months (t : PTable) : List MonthKey := t.rows.map (fun r => r.1)

/-- The row of a month, if present. -/
def rowFor (t : PTable) (m : MonthKey) :
    Option (MonthKey × List (String × Option ℚ)) :=
  t.rows.find? (fun r => r.1 == m)

/-- The cell of a column inside a row, missing when the column is absent. -/
def cellVal (cells : List (String × Option ℚ)) (c : String) : Option ℚ :=
  ((cells.find? (fun p => p.1 == c)).map (fun p => p.2)).getD none

/-- The cells a table contributes for a month in an outer join: its own row
when the month is present, otherwise one missing cell per column. -/
def cellsFor (t : PTable) (m : MonthKey) : List (String × Option ℚ) :=
  match rowFor t m with
  | some r => r.2
  | none => t.cols.map (fun c => (c, none))

/-- The cell of a month and column, missing when either is absent. -/
def getCell (t : PTable) (m : MonthKey) (c : String) : Option ℚ :=
  match rowFor t m with
  | some r => cellVal r.2 c
  | none => none

/-- `pd.merge(t1, t2, on='month', how='outer')` for frames with disjoint
data columns: the union of the months, rows concatenating the two sides'
cells (missing cells for a month absent from one side). -/
def outerMerge (t1 t2 : PTable) : PTable :=
  { cols := t1.cols ++ t2.cols,
    rows := (mergeKeys t1.months t2.months).map
      (fun m => (m, cellsFor t1 m ++ cellsFor t2 m)) }

/-- Every row's cells are keyed exactly by the declared columns. -/
def PTable.Aligned (t : PTable) : Prop :=
  ∀ r ∈ t.rows, r.2.map (fun p => p.1) = t.cols

/-- Well-formedness: aligned rows and one row per month. -/
def PTable.WF (t : PTable) : Prop := t.Aligned ∧ t.months.Nodup

/-- `df.loc[:, ~df.columns.duplicated()]`: keep the first occurrence of
every column name. -/
def dropDupCols (t : PTable) : PTable :=
  { cols := firstDedup t.cols,
    rows := t.rows.map (fun r =>
      (r.1, (firstDedup t.cols).map (fun c => (c, cellVal r.2 c)))) }

/-- The finished frame: every cell zero-filled. -/
structure FTable where
  cols : List String
  rows : List (MonthKey × List (String × ℚ))
  deriving Repr, DecidableEq

/-- The concatenated data columns of a merge sequence. -/
def mergedCols : List PTable → List String
  | [] => []
  | t :: r => t.cols ++ mergedCols r

/-- The merge stage of `run_pipeline` (lines 2099-2121): pairwise outer
joins in script order, duplicate-column drop, `fillna(0)`, sort by month,
and projection onto the preferred columns that occur.  The `month` key is
carried separately from the data columns. -/
def finalizeMerge (ts : List PTable) (preferred : List String) : FTable :=
  match ts with
  | [] => ⟨[], []⟩
  | t0 :: rest =>
    let dd := dropDupCols (rest.foldl outerMerge t0)
    let ordered := preferred.filter (fun c => dd.cols.contains c)
    ⟨ordered,
      (sortByMonth (fun r => r.1) dd.rows).map
        (fun r => (r.1, ordered.map (fun c => (c, (cellVal r.2 c).getD 0))))⟩

/-- The fixed preferred column sequence of `run_pipeline` (lines 2110-2118). -/
def preferred_order : List String :=
  [r"month", r"mrr", r"expansion_mrr", r"contraction_mrr", r"new_mrr",
   r"churned_mrr", r"net_new_mrr", r"arr", r"arpa", r"customers",
   r"customer_churn_rate", r"revenue_churn_rate", r"ltv", r"cac_costs",
   r"new_customers", r"cac", r"cac_ltv_ratio", r"opex", r"cogs",
   r"financial_costs", r"ebitda", r"burn_rate", r"net_burn",
   r"cash_balance_eur", r"runway"]

/-- The net-burn helper column that the projection silently drops. -/
def totalCostsCol : String := "total_costs"

-- ### Cell and row lemmas

theorem map_fst_keyed {α : Type} (ms : List MonthKey) (g : MonthKey → α) :
    ((ms.map (fun x => (x, g x))).map (fun r => r.1)) = ms := by
  rw [List.map_map]
  show ms.map (fun x => x) = ms
  exact List.map_id _

theorem cellVal_cons_pos {q : String × Option ℚ} {t : List (String × Option ℚ)}
    {c : String} (h : q.1 = c) : cellVal (q :: t) c = q.2 := by
  rw [cellVal, List.find?_cons_of_pos _ (by simpa using h)]
  rfl

theorem cellVal_cons_neg {q : String × Option ℚ} {t : List (String × Option ℚ)}
    {c : String} (h : q.1 ≠ c) : cellVal (q :: t) c = cellVal t c := by
  rw [cellVal, List.find?_cons_of_neg _ (by simpa using h), cellVal]

theorem cellVal_append_left {cells1 cells2 : List (String × Option ℚ)}
    {c : String} (h : c ∈ cells1.map (fun p => p.1)) :
    cellVal (cells1 ++ cells2) c = cellVal cells1 c := by
  induction cells1 with
  | nil => simp at h
  | cons q t ih =>
    by_cases hq : q.1 = c
    · rw [List.cons_append, cellVal_cons_pos hq, cellVal_cons_pos hq]
    · rw [List.cons_append, cellVal_cons_neg hq, cellVal_cons_neg hq]
      apply ih
      rcases List.mem_map.mp h with ⟨p, hp, hpc⟩
      rcases List.mem_cons.mp hp with rfl | hp2
      · exact absurd hpc hq
      · exact List.mem_map.mpr ⟨p, hp2, hpc⟩

theorem cellVal_append_right {cells1 cells2 : List (String × Option ℚ)}
    {c : String} (h : c ∉ cells1.map (fun p => p.1)) :
    cellVal (cells1 ++ cells2) c = cellVal cells2 c := by
  induction cells1 with
  | nil => rfl
  | cons q t ih =>
    have hq : q.1 ≠ c :=
      fun he => h (List.mem_map.mpr ⟨q, List.mem_cons_self q t, he⟩)
    rw [List.cons_append, cellVal_cons_neg hq]
    refine ih (fun hm => h ?_)
    rcases List.mem_map.mp hm with ⟨p, hp, hpc⟩
    exact List.mem_map.mpr ⟨p, List.mem_cons_of_mem q hp, hpc⟩

theorem cellVal_keyed (cs : List String) (f : String → Option ℚ) (c : String) :
    cellVal (cs.map (fun x => (x, f x))) c = if c ∈ cs then f c else none := by
  induction cs with
  | nil => simp [cellVal]
  | cons a t ih =>
    by_cases ha : a = c
    · subst ha
      rw [List.map_cons, cellVal_cons_pos rfl, if_pos (List.mem_cons_self a t)]
    · rw [List.map_cons, cellVal_cons_neg ha, ih]
      by_cases hc : c ∈ t
      · rw [if_pos hc, if_pos (List.mem_cons_of_mem a hc)]
      · rw [if_neg hc, if_neg (fun hm => by
          rcases List.mem_cons.mp hm with rfl | h2
          · exact ha rfl
          · exact hc h2)]

theorem cellVal_none_of_not_mem {cells : List (String × Option ℚ)} {c : String}
    (h : c ∉ cells.map (fun p => p.1)) : cellVal cells c = none := by
  induction cells with
  | nil => rfl
  | cons q t ih =>
    have hq : q.1 ≠ c :=
      fun he => h (List.mem_map.mpr ⟨q, List.mem_cons_self q t, he⟩)
    rw [cellVal_cons_neg hq]
    refine ih (fun hm => h ?_)
    rcases List.mem_map.mp hm with ⟨p, hp, hpc⟩
    exact List.mem_map.mpr ⟨p, List.mem_cons_of_mem q hp, hpc⟩

-- ### Row lemmas

theorem rowFor_eq_none {t : PTable} {m : MonthKey} (h : m ∉ t.months) :
    rowFor t m = none := by
  rw [rowFor, List.find?_eq_none]
  intro r hr hbeq
  exact h (List.mem_map.mpr ⟨r, hr, by simpa using hbeq⟩)

theorem find?_of_mem_keys {α : Type} {rows : List (MonthKey × α)}
    {r : MonthKey × α} (hnd : (rows.map (fun x => x.1)).Nodup) (hr : r ∈ rows) :
    rows.find? (fun x => x.1 == r.1) = some r := by
  induction rows with
  | nil => simp at hr
  | cons a l ih =>
    rcases List.mem_cons.mp hr with rfl | hr2
    · exact List.find?_cons_of_pos _ (by simp)
    · have hne2 : a.1 ≠ r.1 := by
        intro he
        rw [List.map_cons, List.nodup_cons] at hnd
        exact hnd.1 (he ▸ List.mem_map.mpr ⟨r, hr2, rfl⟩)
      rw [List.find?_cons_of_neg _ (by simpa using hne2)]
      rw [List.map_cons, List.nodup_cons] at hnd
      exact ih hnd.2 hr2

theorem rowFor_of_mem {t : PTable} {r : MonthKey × List (String × Option ℚ)}
    (hnd : t.months.Nodup) (hr : r ∈ t.rows) : rowFor t r.1 = some r := by
  rw [rowFor]
  rw [PTable.months] at hnd
  exact find?_of_mem_keys hnd hr

theorem find?_rows_keyed {α β : Type} (rows : List (MonthKey × α))
    (f : MonthKey × α → β) (m : MonthKey) :
    ((rows.map (fun r => (r.1, f r))).find? (fun x => x.1 == m))
      = (rows.find? (fun r => r.1 == m)).map (fun r => (r.1, f r)) := by
  induction rows with
  | nil => rfl
  | cons a l ih =>
    by_cases h : a.1 = m
    · rw [List.map_cons, List.find?_cons_of_pos _ (by simpa using h),
        List.find?_cons_of_pos _ (by simpa using h), Option.map_some']
    · rw [List.map_cons, List.find?_cons_of_neg _ (by simpa using h),
        List.find?_cons_of_neg _ (by simpa using h), ih]

theorem cellsFor_map_fst {t : PTable} (ha : t.Aligned) (m : MonthKey) :
    (cellsFor t m).map (fun p => p.1) = t.cols := by
  rw [cellsFor]
  cases hx : rowFor t m with
  | some r =>
    have hr : r ∈ t.rows := List.mem_of_find?_eq_some hx
    exact ha r hr
  | none =>
    rw [List.map_map]
    show t.cols.map (fun x => x) = t.cols
    exact List.map_id _

theorem cellVal_cellsFor (t : PTable) (m : MonthKey) (c : String) :
    cellVal (cellsFor t m) c = getCell t m c := by
  rw [cellsFor, getCell]
  cases hx : rowFor t m with
  | some r => rfl
  | none =>
    rw [cellVal_keyed]
    by_cases hc : c ∈ t.cols
    · rw [if_pos hc]
    · rw [if_neg hc]

-- ### Outer-merge lemmas

theorem outerMerge_cols (t1 t2 : PTable) :
    (outerMerge t1 t2).cols = t1.cols ++ t2.cols := rfl

theorem outerMerge_months (t1 t2 : PTable) :
    (outerMerge t1 t2).months = mergeKeys t1.months t2.months := by
  rw [PTable.months, outerMerge]
  exact map_fst_keyed _ _

theorem outerMerge_WF {t1 t2 : PTable} (h1 : t1.WF) (h2 : t2.WF) :
    (outerMerge t1 t2).WF := by
  constructor
  · intro r hr
    rw [outerMerge] at hr
    obtain ⟨m, _, rfl⟩ := List.mem_map.mp hr
    show ((cellsFor t1 m ++ cellsFor t2 m).map (fun p => p.1)) = t1.cols ++ t2.cols
    rw [List.map_append, cellsFor_map_fst h1.1, cellsFor_map_fst h2.1]
  · rw [outerMerge_months]
    exact nodup_mergeKeys _ _ h1.2 h2.2

theorem getCell_merge_none {t1 t2 : PTable} {m : MonthKey}
    (h : m ∉ (outerMerge t1 t2).months) (c : String) :
    getCell (outerMerge t1 t2) m c = none := by
  rw [getCell, rowFor_eq_none h]

theorem getCell_merge_left {t1 t2 : PTable} (h1 : t1.Aligned)
    (m : MonthKey) {c : String} (hc : c ∈ t1.cols) :
    getCell (outerMerge t1 t2) m c = getCell t1 m c := by
  by_cases hm : m ∈ mergeKeys t1.months t2.months
  · rw [getCell]
    have hfind : rowFor (outerMerge t1 t2) m
        = some (m, cellsFor t1 m ++ cellsFor t2 m) := by
      rw [rowFor, outerMerge]
      show ((mergeKeys t1.months t2.months).map
        (fun x => (x, cellsFor t1 x ++ cellsFor t2 x))).find? (fun r => r.1 == m)
          = _
      rw [find?_keyed, if_pos hm]
    rw [hfind]
    show cellVal (cellsFor t1 m ++ cellsFor t2 m) c = _
    rw [cellVal_append_left (by rw [cellsFor_map_fst h1]; exact hc),
      cellVal_cellsFor]
  · have hm1 : m ∉ t1.months := fun h => hm ((mem_mergeKeys _ _ m).mpr (Or.inl h))
    rw [getCell, rowFor_eq_none (by rw [outerMerge_months]; exact hm),
      getCell, rowFor_eq_none hm1]

theorem getCell_merge_right {t1 t2 : PTable} (h1 : t1.Aligned)
    (m : MonthKey) {c : String} (hc : c ∉ t1.cols) :
    getCell (outerMerge t1 t2) m c = getCell t2 m c := by
  by_cases hm : m ∈ mergeKeys t1.months t2.months
  · rw [getCell]
    have hfind : rowFor (outerMerge t1 t2) m
        = some (m, cellsFor t1 m ++ cellsFor t2 m) := by
      rw [rowFor, outerMerge]
      show ((mergeKeys t1.months t2.months).map
        (fun x => (x, cellsFor t1 x ++ cellsFor t2 x))).find? (fun r => r.1 == m)
          = _
      rw [find?_keyed, if_pos hm]
    rw [hfind]
    show cellVal (cellsFor t1 m ++ cellsFor t2 m) c = _
    rw [cellVal_append_right (by rw [cellsFor_map_fst h1]; exact hc),
      cellVal_cellsFor]
  · have hm2 : m ∉ t2.months := fun h => hm ((mem_mergeKeys _ _ m).mpr (Or.inr h))
    rw [getCell, rowFor_eq_none (by rw [outerMerge_months]; exact hm),
      getCell, rowFor_eq_none hm2]

-- ### Duplicate-column drop lemmas

theorem dropDup_months (t : PTable) : (dropDupCols t).months = t.months := by
  rw [PTable.months, dropDupCols]
  show (t.rows.map (fun r =>
      (r.1, (firstDedup t.cols).map (fun c => (c, cellVal r.2 c))))).map
        (fun r => r.1) = _
  rw [List.map_map]
  rfl

theorem dropDup_cols (t : PTable) : (dropDupCols t).cols = firstDedup t.cols := rfl

theorem dropDup_aligned (t : PTable) : (dropDupCols t).Aligned := by
  intro r hr
  rw [dropDupCols] at hr
  obtain ⟨s, _, rfl⟩ := List.mem_map.mp hr
  exact map_fst_keyed _ _

theorem rowFor_dropDup (t : PTable) (m : MonthKey) :
    rowFor (dropDupCols t) m = (rowFor t m).map (fun r =>
      (r.1, (firstDedup t.cols).map (fun c => (c, cellVal r.2 c)))) := by
  rw [rowFor, rowFor, dropDupCols]
  exact find?_rows_keyed _ _ _

theorem getCell_dropDup {t : PTable} (ha : t.Aligned) (m : MonthKey) (c : String) :
    getCell (dropDupCols t) m c = getCell t m c := by
  rw [getCell, getCell, rowFor_dropDup]
  cases hx : rowFor t m with
  | none => rfl
  | some r =>
    show cellVal ((firstDedup t.cols).map (fun x => (x, cellVal r.2 x))) c
        = cellVal r.2 c
    rw [cellVal_keyed]
    by_cases hc : c ∈ firstDedup t.cols
    · rw [if_pos hc]
    · rw [if_neg hc]
      symm
      apply cellVal_none_of_not_mem
      have hr : r ∈ t.rows := List.mem_of_find?_eq_some (by rw [rowFor] at hx; exact hx)
      rw [ha r hr]
      exact fun hm => hc ((mem_firstDedup _ _).mpr hm)

-- ### Sortedness of the month-key insertion sort

theorem contains_firstDedup (l : List String) (c : String) :
    (firstDedup l).contains c = l.contains c := by
  by_cases h : c ∈ l
  · have h1 : (firstDedup l).contains c = true := by
      simp [mem_firstDedup, h]
    have h2 : l.contains c = true := by simp [h]
    rw [h1, h2]
  · have h1 : (firstDedup l).contains c = false := by
      simp [mem_firstDedup, h]
    have h2 : l.contains c = false := by simp [h]
    rw [h1, h2]

theorem mem_insertByMonth {α : Type} (key : α → MonthKey) (a x : α) (l : List α) :
    x ∈ insertByMonth key a l ↔ x = a ∨ x ∈ l := by
  rw [(insertByMonth_perm key a l).mem_iff]
  exact List.mem_cons

theorem pairwise_insertByMonth {α : Type} (key : α → MonthKey) (a : α)
    {l : List α}
    (hl : List.Pairwise (fun x y => monthLeb (key x) (key y) = true) l) :
    List.Pairwise (fun x y => monthLeb (key x) (key y) = true)
      (insertByMonth key a l) := by
  induction l with
  | nil => simp [insertByMonth]
  | cons x t ih =>
    rw [insertByMonth]
    by_cases h : monthLeb (key a) (key x) = true
    · rw [if_pos h]
      refine List.Pairwise.cons ?_ hl
      intro b hb
      rcases List.mem_cons.mp hb with rfl | hb2
      · exact h
      · exact monthLeb_trans h (List.rel_of_pairwise_cons hl hb2)
    · rw [if_neg h]
      have hxa : monthLeb (key x) (key a) = true := by
        rcases monthLeb_total (key a) (key x) with h1 | h1
        · exact absurd h1 h
        · exact h1
      refine List.Pairwise.cons ?_ (ih (List.Pairwise.of_cons hl))
      intro b hb
      rcases (mem_insertByMonth key a b t).mp hb with rfl | hb2
      · exact hxa
      · exact List.rel_of_pairwise_cons hl hb2

theorem pairwise_sortByMonth {α : Type} (key : α → MonthKey) (l : List α) :
    List.Pairwise (fun x y => monthLeb (key x) (key y) = true)
      (sortByMonth key l) := by
  induction l with
  | nil => simp [sortByMonth]
  | cons x t ih => exact pairwise_insertByMonth key x ih

-- ### The fold of pairwise outer merges

theorem foldl_merge_spec :
    ∀ (rest : List PTable) (acc : PTable),
      acc.WF →
      (∀ t ∈ rest, t.WF) →
      (∀ t ∈ rest, ∀ c ∈ t.cols, c ∉ acc.cols) →
      List.Pairwise (fun ta tb => ∀ c ∈ tb.cols, c ∉ ta.cols) rest →
      ((rest.foldl outerMerge acc).WF
        ∧ (rest.foldl outerMerge acc).cols = acc.cols ++ mergedCols rest
        ∧ (∀ m, m ∈ (rest.foldl outerMerge acc).months
            ↔ m ∈ acc.months ∨ ∃ t ∈ rest, m ∈ t.months)
        ∧ (∀ c ∈ acc.cols, ∀ m, getCell (rest.foldl outerMerge acc) m c
            = getCell acc m c)
        ∧ (∀ t ∈ rest, ∀ c ∈ t.cols, ∀ m,
            getCell (rest.foldl outerMerge acc) m c = getCell t m c)) := by
  intro rest
  induction rest with
  | nil =>
    intro acc hacc _ _ _
    refine ⟨hacc, by simp [mergedCols], ?_, fun c _ m => rfl, by simp⟩
    intro m
    simp
  | cons t rest ih =>
    intro acc hacc hwf hdisj hpair
    have htwf : t.WF := hwf t (List.mem_cons_self t rest)
    have hacc' : (outerMerge acc t).WF := outerMerge_WF hacc htwf
    have hdisj' : ∀ u ∈ rest, ∀ c ∈ u.cols, c ∉ (outerMerge acc t).cols := by
      intro u hu c hc
      rw [outerMerge_cols]
      intro hmem
      rcases List.mem_append.mp hmem with h1 | h1
      · exact hdisj u (List.mem_cons_of_mem t hu) c hc h1
      · exact (List.rel_of_pairwise_cons hpair hu) c hc h1
    have hrest_wf : ∀ u ∈ rest, u.WF :=
      fun u hu => hwf u (List.mem_cons_of_mem t hu)
    obtain ⟨iwf, icols, imonths, iacc, irest⟩ :=
      ih (outerMerge acc t) hacc' hrest_wf hdisj' (List.Pairwise.of_cons hpair)
    refine ⟨iwf, ?_, ?_, ?_, ?_⟩
    · show (rest.foldl outerMerge (outerMerge acc t)).cols = _
      rw [icols, outerMerge_cols, mergedCols, List.append_assoc]
    · intro m
      show m ∈ (rest.foldl outerMerge (outerMerge acc t)).months ↔ _
      rw [imonths m, outerMerge_months, mem_mergeKeys]
      constructor
      · rintro ((h | h) | ⟨u, hu, hm⟩)
        · exact Or.inl h
        · exact Or.inr ⟨t, List.mem_cons_self t rest, h⟩
        · exact Or.inr ⟨u, List.mem_cons_of_mem t hu, hm⟩
      · rintro (h | ⟨u, hu, hm⟩)
        · exact Or.inl (Or.inl h)
        · rcases List.mem_cons.mp hu with rfl | hu2
          · exact Or.inl (Or.inr hm)
          · exact Or.inr ⟨u, hu2, hm⟩
    · intro c hc m
      show getCell (rest.foldl outerMerge (outerMerge acc t)) m c = _
      rw [iacc c (by rw [outerMerge_cols]; exact List.mem_append_left _ hc) m]
      exact getCell_merge_left hacc.1 m hc
    · intro u hu c hc m
      rcases List.mem_cons.mp hu with rfl | hu2
      · show getCell (rest.foldl outerMerge (outerMerge acc u)) m c = _
        rw [iacc c (by rw [outerMerge_cols]; exact List.mem_append_right _ hc) m]
        exact getCell_merge_right hacc.1 m
          (hdisj u (List.mem_cons_self u rest) c hc)
      · exact irest u hu2 c hc m

/-- C2: for well-formed metric tables with pairwise distinct data columns
merged in script order, the final frame (i) keeps exactly the preferred
columns that occur anywhere in the merge (so a column such as total_costs,
absent from the preferred list, is silently dropped); (ii) is sorted
ascending by month; (iii) holds exactly one row for every month in the
union of the tables' months and none for any other month; and (iv) fills
every cell with the owning table's value for that month, or 0 when that
table lacks the month. -/
theorem C2_final_merge (t0 : PTable) (rest : List PTable)
    (preferred : List String)
    (hwf : ∀ t ∈ t0 :: rest, t.WF)
    (hpair : List.Pairwise (fun ta tb => ∀ c ∈ tb.cols, c ∉ ta.cols)
      (t0 :: rest)) :
    ((finalizeMerge (t0 :: rest) preferred).cols
        = preferred.filter (fun c => (mergedCols (t0 :: rest)).contains c))
    ∧ preferred_order.contains totalCostsCol = false
    ∧ List.Pairwise (fun a b => monthLeb a b = true)
        ((finalizeMerge (t0 :: rest) preferred).rows.map (fun r => r.1))
    ∧ (∀ m, ((finalizeMerge (t0 :: rest) preferred).rows.countP
          (fun r => r.1 == m))
        = if ∃ t ∈ t0 :: rest, m ∈ t.months then 1 else 0)
    ∧ (∀ r ∈ (finalizeMerge (t0 :: rest) preferred).rows,
        r.2.map (fun p => p.1) = (finalizeMerge (t0 :: rest) preferred).cols)
    ∧ (∀ t ∈ t0 :: rest, ∀ c ∈ t.cols,
        ∀ r ∈ (finalizeMerge (t0 :: rest) preferred).rows,
        ∀ p ∈ r.2, p.1 = c → p.2 = (getCell t r.1 c).getD 0) := by
  obtain ⟨iwf, icols, imonths, iacc, irest⟩ :=
    foldl_merge_spec rest t0 (hwf t0 (List.mem_cons_self t0 rest))
      (fun t ht => hwf t (List.mem_cons_of_mem t0 ht))
      (fun t ht => List.rel_of_pairwise_cons hpair ht)
      (List.Pairwise.of_cons hpair)
  have hF : finalizeMerge (t0 :: rest) preferred
      = ⟨preferred.filter
            (fun c => (dropDupCols (rest.foldl outerMerge t0)).cols.contains c),
          (sortByMonth (fun r => r.1)
              (dropDupCols (rest.foldl outerMerge t0)).rows).map
            (fun r => (r.1, (preferred.filter
                (fun c => (dropDupCols (rest.foldl outerMerge t0)).cols.contains c)).map
              (fun c => (c, (cellVal r.2 c).getD 0))))⟩ := rfl
  have hddnodup : (dropDupCols (rest.foldl outerMerge t0)).months.Nodup := by
    rw [dropDup_months]
    exact iwf.2
  have hgetM : ∀ t ∈ t0 :: rest, ∀ c ∈ t.cols, ∀ m,
      getCell (rest.foldl outerMerge t0) m c = getCell t m c := by
    intro t ht c hc m
    rcases List.mem_cons.mp ht with rfl | ht2
    · exact iacc c hc m
    · exact irest t ht2 c hc m
  refine ⟨?_, by decide, ?_, ?_, ?_, ?_⟩
  · rw [hF]
    show preferred.filter _ = preferred.filter _
    apply List.filter_congr
    intro c _
    rw [dropDup_cols, contains_firstDedup, icols]
    rfl
  · rw [hF]
    show List.Pairwise _
      (((sortByMonth (fun r => r.1)
          (dropDupCols (rest.foldl outerMerge t0)).rows).map _).map
        (fun (r : MonthKey × List (String × ℚ)) => r.1))
    rw [List.map_map]
    exact List.Pairwise.map _ (fun a b h => h)
      (pairwise_sortByMonth
        (fun (r : MonthKey × List (String × Option ℚ)) => r.1) _)
  · intro m
    rw [hF]
    show (((sortByMonth (fun r => r.1)
        (dropDupCols (rest.foldl outerMerge t0)).rows).map _).countP
          (fun (r : MonthKey × List (String × ℚ)) => r.1 == m)) = _
    rw [List.countP_map]
    have hc1 : ((sortByMonth (fun r => r.1)
        (dropDupCols (rest.foldl outerMerge t0)).rows).countP
          (fun r => r.1 == m))
        = ((dropDupCols (rest.foldl outerMerge t0)).rows.countP
            (fun r => r.1 == m)) :=
      (sortByMonth_perm
        (fun (r : MonthKey × List (String × Option ℚ)) => r.1) _).countP_eq _
    have hc2 : ((dropDupCols (rest.foldl outerMerge t0)).rows.countP
          (fun r => r.1 == m))
        = ((rest.foldl outerMerge t0).rows.countP (fun r => r.1 == m)) := by
      rw [dropDupCols, List.countP_map]
      rfl
    have hc3 : ((rest.foldl outerMerge t0).rows.countP (fun r => r.1 == m))
        = List.count m (rest.foldl outerMerge t0).months := by
      rw [PTable.months]
      show List.countP
            (fun (r : MonthKey × List (String × Option ℚ)) => r.1 == m)
            (rest.foldl outerMerge t0).rows
          = List.countP (fun x => x == m)
              ((rest.foldl outerMerge t0).rows.map (fun r => r.1))
      rw [List.countP_map]
      rfl
    show ((sortByMonth (fun r => r.1)
        (dropDupCols (rest.foldl outerMerge t0)).rows).countP
          (fun r => r.1 == m)) = _
    rw [hc1, hc2, hc3]
    by_cases hex : ∃ t ∈ t0 :: rest, m ∈ t.months
    · rw [if_pos hex]
      refine List.count_eq_one_of_mem iwf.2 ?_
      rw [imonths m]
      obtain ⟨t, ht, hm⟩ := hex
      rcases List.mem_cons.mp ht with rfl | ht2
      · exact Or.inl hm
      · exact Or.inr ⟨t, ht2, hm⟩
    · rw [if_neg hex]
      refine List.count_eq_zero_of_not_mem ?_
      intro hmem
      rcases (imonths m).mp hmem with h | ⟨t, ht, hm⟩
      · exact hex ⟨t0, List.mem_cons_self t0 rest, h⟩
      · exact hex ⟨t, List.mem_cons_of_mem t0 ht, hm⟩
  · intro r hr
    rw [hF] at hr ⊢
    obtain ⟨s, _, rfl⟩ := List.mem_map.mp hr
    exact map_fst_keyed _ _
  · intro t ht c hc r hr p hp hpc
    rw [hF] at hr
    obtain ⟨s, hs, rfl⟩ := List.mem_map.mp hr
    obtain ⟨c', hc', rfl⟩ := List.mem_map.mp hp
    rcases hpc
    have hsd : s ∈ (dropDupCols (rest.foldl outerMerge t0)).rows :=
      ((sortByMonth_perm (fun r => r.1) _).mem_iff).mp hs
    have hrow : rowFor (dropDupCols (rest.foldl outerMerge t0)) s.1 = some s :=
      rowFor_of_mem hddnodup hsd
    have hcell : cellVal s.2 c'
        = getCell (dropDupCols (rest.foldl outerMerge t0)) s.1 c' := by
      rw [getCell, hrow]
    show (cellVal s.2 c').getD 0 = _
    rw [hcell, getCell_dropDup iwf.1, hgetM t ht c' hc]

instance (t : PTable) : Decidable t.Aligned :=
  inferInstanceAs (Decidable (∀ r ∈ t.rows, r.2.map (fun p => p.1) = t.cols))

instance (t : PTable) : Decidable t.WF :=
  inferInstanceAs (Decidable (t.Aligned ∧ t.months.Nodup))

/-- The MRR column name. -/
def mrrCol : String := "mrr"

/-- The opex column name. -/
def opexCol : String := "opex"

/-- A one-column metric table with a January row. -/
def tA : PTable := ⟨[mrrCol], [(mJan, [(mrrCol, some 5)])]⟩

/-- A one-column metric table with a February row. -/
def tB : PTable := ⟨[opexCol], [(mFeb, [(opexCol, some 3)])]⟩

/-- C2 witness: the final-merge theorem applied to two concrete one-column
tables with the fixed preferred column list. -/
theorem C2_final_merge_witness :
    (finalizeMerge [tA, tB] preferred_order).cols
      = preferred_order.filter (fun c => (mergedCols [tA, tB]).contains c) :=
  (C2_final_merge tA [tB] preferred_order (by decide) (by decide)).1

end Portfolio
